import Mathlib

/-!
Verification development for the mapping-and-payload-construction engine of
`auto-api-pusher` (`src/utils/dataUtils.ts`, latest revision in the file).

The engine works on untyped JSON-ish values.  We embed them as `JsonValue`
(a tagged union: null, booleans, rationals for JS numbers, strings, arrays,
insertion-ordered string-keyed objects).  JS numbers are modelled as
rationals: every numeric literal the engine's claims exercise is exactly
representable; non-finite results (`Infinity`, `NaN`) are outside the model
and are treated as parse failures where relevant.

Fallible operations are embedded with `Option`: `none` models a thrown
exception (the TypeScript sources are ES modules, hence strict mode, where
assigning a property on a primitive receiver raises `TypeError`).  Writing a
named property on an array receiver is also modelled as `none` (in JS the
write succeeds but the property is invisible to JSON serialization); the
safety theorem's well-formedness hypothesis excludes both situations.
-/

inductive JsonValue : Type where
  | null : JsonValue
  | bool (b : Bool) : JsonValue
  | num (q : ℚ) : JsonValue
  | str (s : String) : JsonValue
  | arr (elems : List JsonValue) : JsonValue
  | obj (fields : List (String × JsonValue)) : JsonValue

/-! ### JavaScript string primitives

The Lean core string functions (`String.splitOn`, `String.trim`, …) are
compiled by well-founded recursion and do not reduce inside the kernel, so
the JS string operations the engine uses are re-implemented here by
structural recursion over character lists. -/

/-- Does `sep` occur as a prefix of `l`? -/
def prefixAt : List Char → List Char → Bool
  | [], _ => true
  | _ :: _, [] => false
  | c :: cs, d :: ds => c = d && prefixAt cs ds

/-- Splitting worker: scan `l`, cutting at each non-overlapping occurrence of
`sep` (which is non-empty at every call site).  `fuel` only bounds the scan;
`chars.length + 1` always suffices since every step consumes a character. -/
def splitAux (sep : List Char) : Nat → List Char → List Char → List (List Char)
  | _, [], acc => [acc.reverse]
  | 0, l, acc => [acc.reverse ++ l]
  | fuel + 1, c :: cs, acc =>
    if prefixAt sep (c :: cs) then
      acc.reverse :: splitAux sep fuel ((c :: cs).drop sep.length) []
    else
      splitAux sep fuel cs (c :: acc)

/-- JS `s.split(sep)` for a literal, non-empty separator.  (The engine
defaults every empty separator before splitting, so the `sep = ""` case is
unreachable; it is given JS's degenerate `[s]`-like value for totality.) -/
def jsSplit (s : String) (sep : String) : List String :=
  if sep = "" then [s]
  else (splitAux sep.toList (s.toList.length + 1) s.toList []).map String.mk

/-- JS `s.trim()`. -/
def jsTrim (s : String) : String :=
  String.mk (((s.toList.dropWhile Char.isWhitespace).reverse.dropWhile
    Char.isWhitespace).reverse)

/-- JS `s.toLowerCase()` (ASCII case mapping suffices here). -/
def jsToLower (s : String) : String :=
  String.mk (s.toList.map Char.toLower)

/-- Leading wrapper characters stripped by
`replace(/^[\(\[\{]+|[\)\]\}]+$/g, '')` — `(`, `[`, `{`. -/
def isOpenWrap (c : Char) : Bool :=
  c = '(' || c = '[' || c = Char.ofNat 123

/-- Trailing wrapper characters stripped by the same regex — `)`, `]`, `}`. -/
def isCloseWrap (c : Char) : Bool :=
  c = ')' || c = ']' || c = Char.ofNat 125

/-- `rawItem.replace(/^[\(\[\{]+|[\)\]\}]+$/g, '')`: drop the leading run of
opening wrappers and the trailing run of closing wrappers. -/
def stripWrapping (s : String) : String :=
  String.mk (((s.toList.dropWhile isOpenWrap).reverse.dropWhile
    isCloseWrap).reverse)

/-- The `DataType` union from `src/types.ts`. -/
inductive DataType : Type where
  | string : DataType
  | number : DataType
  | boolean : DataType
  | object : DataType
  | array_string : DataType
  | array_number : DataType
  | array_object : DataType
deriving DecidableEq, Repr

/-- `m.dataType.startsWith('array_')` in `constructPayload`. -/
def DataType.isArrayType : DataType → Bool
  | .array_string => true
  | .array_number => true
  | .array_object => true
  | _ => false

/-- `TransformationConfig` from `src/types.ts`.  `itemSeparator` and
`itemIndex` are optional (`undefined` ↦ `none`). -/
structure TransformationConfig : Type where
  enabled : Bool
  separator : String
  itemSeparator : Option String
  itemIndex : Option Nat
deriving DecidableEq, Repr

/-- `InternalFieldMapping` from `src/types.ts`.  `index` is a `number` in
TypeScript; the UI only produces non-negative integers, embedded as `Nat`
(a negative or fractional index behaves like "out of range" in the source,
exactly as `none` from `List.get?` does here). -/
structure InternalFieldMapping : Type where
  key : String
  index : Nat
  dataType : DataType
deriving DecidableEq, Repr

/-- `Mapping` from `src/types.ts`.  The `id` field exists only for UI
bookkeeping and is never read by the engine; it is kept for fidelity. -/
structure Mapping : Type where
  id : String
  jsonPath : String
  dataType : DataType
  csvHeader : Option String
  defaultValue : Option String
  transformation : Option TransformationConfig
  internalFields : Option (List InternalFieldMapping)
deriving DecidableEq, Repr

/-- `CsvRow` (`[key: string]: string`): a string-keyed map of strings,
embedded as an association list (JS object keys are unique; lookup takes the
first binding). -/
def CsvRow : Type := List (String × String)

/-- `row[h]`: `none` models `undefined`. -/
def rowGet (row : CsvRow) (h : String) : Option String :=
  (row.find? (fun p => p.1 = h)).map (fun p => p.2)

/-- JS truthiness of a `JsonValue` (`undefined` is handled separately via
`Option`). `NaN` does not arise: numbers are rationals. -/
def truthy : JsonValue → Bool
  | .null => false
  | .bool b => b
  | .num q => q ≠ 0
  | .str s => s ≠ ""
  | .arr _ => true
  | .obj _ => true

/-- Object property read: first binding for the key, `none` = `undefined`. -/
def getField (fields : List (String × JsonValue)) (k : String) : Option JsonValue :=
  (fields.find? (fun p => p.1 = k)).map (fun p => p.2)

/-- Object property write: update in place (JS objects keep the original
insertion position of an existing key) or append a new binding. -/
def setField (fields : List (String × JsonValue)) (k : String) (v : JsonValue) :
    List (String × JsonValue) :=
  match fields with
  | [] => [(k, v)]
  | (k', v') :: rest =>
    if k' = k then (k', v) :: rest else (k', v') :: setField rest k v

/-- One dotted-path segment, with the `[]` array-expansion marker split off
(`part.endsWith('[]')` / `part.slice(0, -2)` in `setDeep`). -/
structure Seg : Type where
  key : String
  isArray : Bool
deriving DecidableEq, Repr

/-- JS `part.endsWith('[]')`. -/
def endsWithMarker (part : String) : Bool :=
  match part.toList.reverse with
  | ']' :: '[' :: _ => true
  | _ => false

/-- JS `part.slice(0, -2)`: the part without its final two characters. -/
def dropLast2 (part : String) : String :=
  String.mk ((part.toList.reverse.drop 2).reverse)

/-- `path.split('.')` plus per-segment marker detection from `setDeep`. -/
def segsOf (path : String) : List Seg :=
  (jsSplit path ".").map fun part =>
    if endsWithMarker part then ⟨dropLast2 part, true⟩ else ⟨part, false⟩

/-- `Array.isArray(value) ? value : [value]` (the `valuesToAssign`
coercion inside `setDeep`). -/
def toValsList : JsonValue → List JsonValue
  | .arr xs => xs
  | v => [v]

/-- The existing array at `fields[k]`, or `[]` when the slot is absent or
not an array (`if (!current[key] || !Array.isArray(current[key]))
current[key] = []`). -/
def arrElemsAt (fields : List (String × JsonValue)) (k : String) : List JsonValue :=
  match getField fields k with
  | some (.arr xs) => xs
  | _ => []

/-- The child object stepped into on a non-final scalar segment:
`if (!current[key]) current[key] = {}; current = current[key]` — a falsy or
absent slot is replaced by a fresh object, a truthy slot is kept as-is. -/
def childAt (fields : List (String × JsonValue)) (k : String) : JsonValue :=
  match getField fields k with
  | some c => if truthy c then c else .obj []
  | none => .obj []

/-- The per-index body of `valuesToAssign.forEach((val, index) => ...)` in
`setDeep`'s non-final array branch, abstracted over the recursive call `f`:
ensure an object exists at `arrayRef[index]` (`if (!arrayRef[index])
arrayRef[index] = {}` — falsy slots are replaced), write `val` into it along
the remaining path, and keep any surplus existing elements. -/
def distribWith (f : JsonValue → JsonValue → Option JsonValue) :
    List JsonValue → List JsonValue → Option (List JsonValue)
  | elems, [] => some elems
  | elems, v :: vs =>
    let base : JsonValue :=
      match elems.head? with
      | some e => if truthy e then e else .obj []
      | none => .obj []
    match f base v with
    | some e2 =>
      match distribWith f elems.tail vs with
      | some tl => some (e2 :: tl)
      | none => none
    | none => none

/-- The traversal loop of `setDeep` over parsed segments.  `none` models a
strict-mode `TypeError`: a property write whose receiver is not a plain
object (primitive receivers throw in strict mode; array receivers with a
named key are also rejected by the model, see the header comment).

In the non-final array branch the source recurses through the string-level
entry point — `setDeep(arrayRef[index], parts.slice(i+1).join('.'), val)` —
which re-enters the `if (!path) return` guard: when the remaining segments
join back to the empty string (exactly the single empty scalar segment,
since no part contains a dot) the recursive write is a no-op, although the
falsy-slot coercion `arrayRef[index] = {}` has already happened. -/
def setDeepSegs : List Seg → JsonValue → JsonValue → Option JsonValue
  | [], v, _ => some v
  | s :: rest, v, value =>
    match v with
    | .obj fields =>
      if s.isArray then
        match rest with
        | [] => some (.obj (setField fields s.key (.arr (toValsList value))))
        | r1 :: rs =>
          match distribWith (fun b x =>
              if r1 :: rs = [Seg.mk "" false] then some b
              else setDeepSegs (r1 :: rs) b x)
              (arrElemsAt fields s.key) (toValsList value) with
          | some xs => some (.obj (setField fields s.key (.arr xs)))
          | none => none
      else
        match rest with
        | [] => some (.obj (setField fields s.key value))
        | r1 :: rs =>
          match setDeepSegs (r1 :: rs) (childAt fields s.key) value with
          | some c => some (.obj (setField fields s.key c))
          | none => none
    | _ => none

/-- `setDeep(obj, path, value)` from `dataUtils.ts` (latest revision):
an empty path is a no-op (`if (!path) return;`), otherwise split the path on
`.` and run the traversal loop. -/
def setDeep (obj : JsonValue) (path : String) (value : JsonValue) : Option JsonValue :=
  if path = "" then some obj else setDeepSegs (segsOf path) obj value

/-! ### JS `Number()` on trimmed strings

`castValue` calls `Number(strVal)` on an already-trimmed string.  The model
returns `Option ℚ`, `none` standing for `NaN`: decimal literals with
optional sign, fraction and exponent, plus unsigned `0x`/`0b`/`0o`
literals, are parsed; `Infinity` is not representable in `ℚ` and is mapped
to `none` (the claims never exercise non-finite inputs). -/

/-- Value of a decimal digit list (assumes all chars are digits). -/
def digitsToNat (l : List Char) : Nat :=
  l.foldl (fun a c => a * 10 + (c.toNat - 48)) 0

/-- All-digit check plus value, failing on the empty list. -/
def parseDigits (l : List Char) : Option Nat :=
  if l.isEmpty then none
  else if l.all Char.isDigit then some (digitsToNat l) else none

/-- Hexadecimal digit value. -/
def hexDigitVal (c : Char) : Option Nat :=
  if c.isDigit then some (c.toNat - 48)
  else if 'a' ≤ c && c ≤ 'f' then some (c.toNat - 87)
  else if 'A' ≤ c && c ≤ 'F' then some (c.toNat - 55)
  else none

/-- Binary digit value. -/
def binDigitVal (c : Char) : Option Nat :=
  if c = '0' then some 0 else if c = '1' then some 1 else none

/-- Octal digit value. -/
def octDigitVal (c : Char) : Option Nat :=
  if c.isDigit && c.toNat ≤ 55 then some (c.toNat - 48) else none

/-- Non-empty digit string in the given base. -/
def parseNatBase (base : Nat) (digOf : Char → Option Nat) (l : List Char) :
    Option Nat :=
  match l with
  | [] => none
  | _ => l.foldlM (fun a c => (digOf c).map fun d => a * base + d) 0

/-- Optional exponent tail of a decimal literal: either nothing remains, or
`e`/`E`, an optional sign, and a non-empty digit run. -/
def parseExpTail : List Char → Option Int
  | [] => some 0
  | c :: rest =>
    if c = 'e' || c = 'E' then
      match rest with
      | '+' :: ds => (parseDigits ds).map Int.ofNat
      | '-' :: ds => (parseDigits ds).map fun n => -(n : Int)
      | ds => (parseDigits ds).map Int.ofNat
    else none

/-- The exact rational `(-1)^neg * (ip.fp) * 10^e`, written as a ratio of
integers so that the kernel can evaluate it (`mkRat`, `Nat.pow` and
`Int.pow` all reduce on literals). -/
def scientificValue (neg : Bool) (ip : Nat) (fp : List Char) (e : Int) : ℚ :=
  let mantNat : Nat := ip * Nat.pow 10 fp.length + digitsToNat fp
  let mant : Int := if neg then -(mantNat : Int) else (mantNat : Int)
  match e with
  | .ofNat k => mkRat (mant * Int.pow 10 k) (Nat.pow 10 fp.length)
  | .negSucc k => mkRat mant (Nat.pow 10 fp.length * Nat.pow 10 (k + 1))

/-- Unsigned decimal literal (JS `DecimalLiteral`): `digits [. digits] [exp]`
or `. digits [exp]`; `"1."` is legal, `"."` and `"e5"` are not. -/
def parseDecCore (l : List Char) : Option ℚ :=
  let ip := l.takeWhile Char.isDigit
  let r1 := l.dropWhile Char.isDigit
  match r1 with
  | '.' :: r2 =>
    let fp := r2.takeWhile Char.isDigit
    let r3 := r2.dropWhile Char.isDigit
    if ip.isEmpty && fp.isEmpty then none
    else
      (parseExpTail r3).map fun e => scientificValue false (digitsToNat ip) fp e
  | _ =>
    if ip.isEmpty then none
    else (parseExpTail r1).map fun e => scientificValue false (digitsToNat ip) [] e

/-- JS `Number(s)` for a trimmed, non-empty string (the empty string is
handled by `castValue` before `Number` is consulted). -/
def jsNumber (s : String) : Option ℚ :=
  match s.toList with
  | [] => none
  | '+' :: rest => parseDecCore rest
  | '-' :: rest => (parseDecCore rest).map Neg.neg
  | '0' :: c :: rest =>
    if c = 'x' || c = 'X' then (parseNatBase 16 hexDigitVal rest).map Nat.cast
    else if c = 'b' || c = 'B' then (parseNatBase 2 binDigitVal rest).map Nat.cast
    else if c = 'o' || c = 'O' then (parseNatBase 8 octDigitVal rest).map Nat.cast
    else parseDecCore ('0' :: c :: rest)
  | l => parseDecCore l

/-! ### `JSON.parse`

`castValue` falls back to `JSON.parse` for the `object` and `array_object`
types, swallowing exceptions.  The JSON grammar is embedded below; `none`
models a thrown `SyntaxError`.  A `\uXXXX` escape becomes the character
with that code (lone surrogates degrade to `Char.ofNat`'s default, a
fidelity loss only for strings the claims never exercise). -/

/-- JSON insignificant whitespace. -/
def jsonWs (c : Char) : Bool :=
  c = ' ' || c = '\t' || c = '\n' || c = '\r'

/-- Skip insignificant whitespace. -/
def skipWs (l : List Char) : List Char := l.dropWhile jsonWs

/-- The characters of a JSON string after the opening quote, with escape
processing; returns the decoded characters and the input after the closing
quote. -/
def jsonStringChars : List Char → Option (List Char × List Char)
  | [] => none
  | '"' :: rest => some ([], rest)
  | '\\' :: e :: rest =>
    if e = 'u' then
      match rest with
      | h1 :: h2 :: h3 :: h4 :: rest2 =>
        match hexDigitVal h1, hexDigitVal h2, hexDigitVal h3, hexDigitVal h4 with
        | some a, some b, some c, some d =>
          (jsonStringChars rest2).map fun p =>
            (Char.ofNat (((a * 16 + b) * 16 + c) * 16 + d) :: p.1, p.2)
        | _, _, _, _ => none
      | _ => none
    else
      let decoded : Option Char :=
        if e = '"' then some '"'
        else if e = '\\' then some '\\'
        else if e = '/' then some '/'
        else if e = 'b' then some (Char.ofNat 8)
        else if e = 'f' then some (Char.ofNat 12)
        else if e = 'n' then some '\n'
        else if e = 'r' then some '\r'
        else if e = 't' then some '\t'
        else none
      match decoded with
      | some d => (jsonStringChars rest).map fun p => (d :: p.1, p.2)
      | none => none
  | c :: rest =>
    if c.toNat < 32 then none
    else (jsonStringChars rest).map fun p => (c :: p.1, p.2)

/-- JSON number: `-? (0 | [1-9]digits) frac? exp?`; returns the value and the
unconsumed input. -/
def parseJsonNumber (l : List Char) : Option (ℚ × List Char) :=
  let sl : Bool × List Char := match l with | '-' :: r => (true, r) | _ => (false, l)
  let ipRes : Option (Nat × List Char) :=
    match sl.2 with
    | '0' :: r => some (0, r)
    | c :: _ =>
      if c.isDigit then
        some (digitsToNat (sl.2.takeWhile Char.isDigit),
          sl.2.dropWhile Char.isDigit)
      else none
    | [] => none
  match ipRes with
  | none => none
  | some (ip, r2) =>
    let fracRes : Option (List Char × List Char) :=
      match r2 with
      | '.' :: r3 =>
        let ds := r3.takeWhile Char.isDigit
        if ds.isEmpty then none
        else some (ds, r3.dropWhile Char.isDigit)
      | _ => some ([], r2)
    match fracRes with
    | none => none
    | some (fp, r4) =>
      let expRes : Option (Int × List Char) :=
        match r4 with
        | c :: r5 =>
          if c = 'e' || c = 'E' then
            let sr : Bool × List Char :=
              match r5 with
              | '+' :: r => (false, r)
              | '-' :: r => (true, r)
              | _ => (false, r5)
            let ds := sr.2.takeWhile Char.isDigit
            if ds.isEmpty then none
            else
              some (if sr.1 then -(digitsToNat ds : Int) else (digitsToNat ds : Int),
                sr.2.dropWhile Char.isDigit)
          else some (0, r4)
        | [] => some (0, [])
      match expRes with
      | none => none
      | some (e, r7) => some (scientificValue sl.1 ip fp e, r7)

/-- Literal keyword match: does `kw` prefix `l`?  Returns the remainder. -/
def matchLit (kw : List Char) (l : List Char) : Option (List Char) :=
  if prefixAt kw l then some (l.drop kw.length) else none

mutual

/-- One JSON value; consumes leading whitespace, returns the remainder.
`fuel` bounds nesting depth; every recursive call strictly consumes input,
so `input.length + 1` always suffices at top level. -/
def parseJsonValue : Nat → List Char → Option (JsonValue × List Char)
  | 0, _ => none
  | fuel + 1, l =>
    match skipWs l with
    | [] => none
    | c :: rest =>
      if c = Char.ofNat 123 then
        match skipWs rest with
        | r1 :: r2 =>
          if r1 = Char.ofNat 125 then some (.obj [], r2)
          else parseJsonMembers fuel rest []
        | [] => none
      else if c = '[' then
        match skipWs rest with
        | ']' :: r2 => some (.arr [], r2)
        | _ => parseJsonElements fuel rest []
      else if c = '"' then
        (jsonStringChars rest).map fun p => (.str (String.mk p.1), p.2)
      else if c = 't' then
        (matchLit ['r', 'u', 'e'] rest).map fun r => (.bool true, r)
      else if c = 'f' then
        (matchLit ['a', 'l', 's', 'e'] rest).map fun r => (.bool false, r)
      else if c = 'n' then
        (matchLit ['u', 'l', 'l'] rest).map fun r => (.null, r)
      else
        (parseJsonNumber (c :: rest)).map fun p => (.num p.1, p.2)

/-- Members of a JSON object after at least one `"key": value` pair is
expected; duplicate keys overwrite in place, as `JSON.parse` does. -/
def parseJsonMembers : Nat → List Char →
    List (String × JsonValue) → Option (JsonValue × List Char)
  | 0, _, _ => none
  | fuel + 1, l, acc =>
    match skipWs l with
    | '"' :: rest =>
      match jsonStringChars rest with
      | none => none
      | some (cs, r1) =>
        match skipWs r1 with
        | ':' :: r2 =>
          match parseJsonValue fuel r2 with
          | none => none
          | some (v, r3) =>
            let acc2 := setField acc (String.mk cs) v
            match skipWs r3 with
            | ',' :: r4 => parseJsonMembers fuel r4 acc2
            | d :: r4 =>
              if d = Char.ofNat 125 then some (.obj acc2, r4) else none
            | [] => none
        | _ => none
    | _ => none

/-- Elements of a JSON array once at least one value is expected. -/
def parseJsonElements : Nat → List Char →
    List JsonValue → Option (JsonValue × List Char)
  | 0, _, _ => none
  | fuel + 1, l, acc =>
    match parseJsonValue fuel l with
    | none => none
    | some (v, r1) =>
      match skipWs r1 with
      | ',' :: r2 => parseJsonElements fuel r2 (acc ++ [v])
      | ']' :: r2 => some (.arr (acc ++ [v]), r2)
      | _ => none

end

/-- `JSON.parse(s)`: parse one value, then require only whitespace to
remain; `none` models a thrown `SyntaxError`. -/
def jsonParse (s : String) : Option JsonValue :=
  match parseJsonValue (s.toList.length + 1) s.toList with
  | some (v, rest) => if skipWs rest = [] then some v else none
  | none => none

/-! ### Type Caster -/

/-- `castValue(val, type)` from `dataUtils.ts`, for a string `val` — the only
shape `constructPayload` ever passes (row cells, `defaultValue` and split
parts are all strings).  The source's `undefined`/`null`/`typeof 'object'`
pass-through lines are unreachable from the engine and are not modelled.
`String(val)` is the identity on strings, so the function starts from
`strVal = val.trim()`. -/
def castValue (val : String) (type : DataType) : JsonValue :=
  let strVal := jsTrim val
  match type with
  | .number | .array_number =>
    if strVal = "" then .num 0
    else
      match jsNumber strVal with
      | some q => .num q
      | none => .num 0
  | .boolean => .bool (jsToLower strVal = "true" || strVal = "1")
  | .object =>
    if strVal = "" then .obj []
    else
      match jsonParse strVal with
      | some v => v
      | none => .obj []
  | .array_object =>
    if strVal = "" then .arr []
    else
      match jsonParse strVal with
      | some v => v
      | none => .arr []
  | _ => .str strVal

/-! ### Schema seeding: `inferType` and `flattenObjectKeys` -/

/-- `inferType(value)` from `dataUtils.ts` (latest revision): arrays are
classified by their first element (`typeof first === 'number'` →
`array_number`; `typeof first === 'object' && first !== null` —
which includes nested arrays — → `array_object`; anything else, or an empty
array, → `array_string`); non-array objects → `object`; `number`/`boolean`
scalars → their type; everything else (including `null`, for which
`value !== null` fails) → `string`. -/
def inferType : JsonValue → DataType
  | .arr [] => .array_string
  | .arr (x :: _) =>
    match x with
    | .num _ => .array_number
    | .obj _ => .array_object
    | .arr _ => .array_object
    | _ => .array_string
  | .num _ => .number
  | .bool _ => .boolean
  | .obj _ => .object
  | _ => .string

/-- `flattenObjectKeys(obj)` from `dataUtils.ts` (latest revision): one
`{path, type}` entry per *top-level* enumerable key — it does not recurse
into nested objects and produces no dotted paths.  `for (const key in obj)`
enumerates index strings on an array receiver and nothing on other
primitives. -/
def flattenObjectKeys : JsonValue → List (String × DataType)
  | .obj fields => fields.map fun p => (p.1, inferType p.2)
  | .arr xs => (List.range xs.length).zip (xs.map inferType) |>.map
      fun p => (toString p.1, p.2)
  | _ => []

/-! ### Field Mapping Resolver + Payload Constructor -/

/-- `m.defaultValue !== undefined && m.defaultValue !== ''` branch of the
raw-value resolution. -/
def resolveDefault (m : Mapping) : Option String :=
  match m.defaultValue with
  | some d => if d = "" then none else some d
  | none => none

/-- Step 1 of `constructPayload` for one mapping: raw = the row cell when
`m.csvHeader` is truthy and the column is defined, else the non-empty
default, else `none` (skip). -/
def resolveRaw (row : CsvRow) (m : Mapping) : Option String :=
  match m.csvHeader with
  | some h =>
    if h = "" then resolveDefault m
    else
      match rowGet row h with
      | some v => some v
      | none => resolveDefault m
  | none => resolveDefault m

/-- `m.csvHeader` truthiness (`undefined` and `''` are falsy). -/
def headerTruthy (m : Mapping) : Bool :=
  match m.csvHeader with
  | some h => h ≠ ""
  | none => false

/-- `m.transformation?.separator || ','`. -/
def sepOf (t : Option TransformationConfig) : String :=
  match t with
  | some tc => if tc.separator = "" then "," else tc.separator
  | none => ","

/-- `m.transformation?.itemSeparator || '*'`. -/
def itemSepOf (t : Option TransformationConfig) : String :=
  match t with
  | some tc =>
    match tc.itemSeparator with
    | some s => if s = "" then "*" else s
    | none => "*"
  | none => "*"

/-- Per-internal-field value inside the structured `array_object` branch:
`values[field.index]` cast via `castValue` when defined, the raw empty
string `''` (not cast!) when the index is out of range. -/
def fieldVal (values : List String) (f : InternalFieldMapping) : JsonValue :=
  match values.get? f.index with
  | some v => castValue v f.dataType
  | none => .str ""

/-- Build one item object from its positional tokens: fold `setDeep` over
`m.internalFields` starting from a fresh `{}` (nested keys inside one array
element are allowed, hence the `Option`). -/
def buildItem (fs : List InternalFieldMapping) (values : List String) :
    Option JsonValue :=
  fs.foldlM (fun b f => setDeep b f.key (fieldVal values f)) (.obj [])

/-- One structured item: trim, strip wrapping brackets, split on the item
separator into trimmed tokens, then build the object — or the
`{raw: cleanItem}` fallback when `internalFields` is missing or empty. -/
def structuredItem (m : Mapping) (rawItem : String) : Option JsonValue :=
  let cleanItem := stripWrapping (jsTrim rawItem)
  let values := (jsSplit cleanItem (itemSepOf m.transformation)).map jsTrim
  match m.internalFields with
  | some fs =>
    if fs.length > 0 then buildItem fs values
    else some (.obj [("raw", .str cleanItem)])
  | none => some (.obj [("raw", .str cleanItem)])

/-- Effectful map over `Option` (`xs.map f` in JS, where a thrown exception
aborts the whole `constructPayload` call). -/
def optionMapM (f : α → Option β) : List α → Option (List β)
  | [] => some []
  | x :: xs =>
    match f x with
    | some y =>
      match optionMapM f xs with
      | some ys => some (y :: ys)
      | none => none
    | none => none

/-- The whole structured `array_object` value: split the raw cell on the
main separator and build one object per item. -/
def structuredValue (m : Mapping) (rawValue : String) : Option JsonValue :=
  (optionMapM (structuredItem m) (jsSplit rawValue (sepOf m.transformation))).map .arr

/-- Step 3 of `constructPayload` (generic transformation): split the raw
string on the separator into trimmed parts — empty parts are *kept* — and,
when `itemSeparator` is truthy, replace each part by its token at
`itemIndex || 0` after bracket-stripping (empty string when absent). -/
def genericParts (t : TransformationConfig) (rawValue : String) : List String :=
  let separator := if t.separator = "" then "," else t.separator
  let listParts := (jsSplit rawValue separator).map jsTrim
  match t.itemSeparator with
  | some isep =>
    if isep = "" then listParts
    else
      listParts.map fun part =>
        let cleanPart := stripWrapping part
        let subParts := (jsSplit cleanPart isep).map jsTrim
        match subParts.get? (t.itemIndex.getD 0) with
        | some v => v
        | none => ""
  | none => listParts

/-- Step 4 of `constructPayload` when no transformation ran: wrap the scalar
for `array_` types and cast (per element for the wrapped singleton). -/
def scalarFinal (m : Mapping) (rawValue : String) : JsonValue :=
  if m.dataType.isArrayType then .arr [castValue rawValue m.dataType]
  else castValue rawValue m.dataType

/-- The body of `mappings.forEach(m => ...)` in `constructPayload`: resolve
the raw value (skip if absent), take the structured `array_object` branch
when the raw value came typed as a string with a truthy `csvHeader`, else
generic transformation plus casting, and write the result at `m.jsonPath`.
`none` propagates a `setDeep` exception. -/
def applyMapping (row : CsvRow) (body : JsonValue) (m : Mapping) :
    Option JsonValue :=
  match resolveRaw row m with
  | none => some body
  | some rawValue =>
    if m.dataType = DataType.array_object ∧ headerTruthy m = true then
      match structuredValue m rawValue with
      | some fv => setDeep body m.jsonPath fv
      | none => none
    else
      let finalValue : JsonValue :=
        match m.transformation with
        | some t =>
          if t.enabled then
            .arr ((genericParts t rawValue).map fun s => castValue s m.dataType)
          else scalarFinal m rawValue
        | none => scalarFinal m rawValue
      setDeep body m.jsonPath finalValue

/-- `constructPayload(row, mappings)` from `dataUtils.ts`: fold every
mapping over a fresh `{}` body.  `none` models the call throwing. -/
def constructPayload (row : CsvRow) (mappings : List Mapping) :
    Option JsonValue :=
  mappings.foldlM (applyMapping row) (.obj [])

def SafeFor : List Seg → JsonValue → Prop
  | [], _ => True
  | s :: rest, v =>
    match v with
    | .obj fields =>
      if s.isArray then
        rest = [] ∨ ∀ e ∈ arrElemsAt fields s.key, truthy e = true → SafeFor rest e
      else
        rest = [] ∨ SafeFor rest (childAt fields s.key)
    | _ => False

/-- Two parsed paths are independent when they are equal or first differ at
a segment whose keys differ (so the writes land in disjoint slots). -/
def indepSegs : List Seg → List Seg → Bool
  | [], [] => true
  | [], _ :: _ => false
  | _ :: _, [] => false
  | s :: ss, t :: ts => if s = t then indepSegs ss ts else decide (s.key ≠ t.key)

/-! ### Well-formedness of mapping lists (claim C2's hypothesis) -/

/-- Path-level safety: the empty path is a `setDeep` no-op, any other path
must be obstacle-free in `v`. -/
def SafeP (path : String) (v : JsonValue) : Prop :=
  path = "" ∨ SafeFor (segsOf path) v

/-- Executable independence of two `jsonPath` strings. -/
def pathOK (p q : String) : Bool :=
  p = "" || q = "" || indepSegs (segsOf p) (segsOf q)

/-- Executable pairwise check along a list. -/
def pairwiseB (r : α → α → Bool) : List α → Bool
  | [] => true
  | x :: xs => xs.all (r x) && pairwiseB r xs

/-- Structural well-formedness of one mapping: its `internalFields` keys are
pairwise independent (they are written into the same fresh item object). -/
def mappingOKB (m : Mapping) : Bool :=
  match m.internalFields with
  | some fs => pairwiseB (fun f g => pathOK f.key g.key) fs
  | none => true

/-- Structural well-formedness of a mapping list: every mapping is
well-formed and the `jsonPath`s are pairwise independent — no path is a
strict key-prefix of another and diverging paths diverge at distinct keys
(so no mapping ever writes *through* a slot another mapping filled with a
scalar, the collision case the specification leaves undefined). -/
def wellFormedB (ms : List Mapping) : Bool :=
  ms.all mappingOKB && pairwiseB (fun a b => pathOK a.jsonPath b.jsonPath) ms

/-! ### Safety of `setDeep` writes

`setDeepSegs` only returns `none` when a traversal step meets a truthy
non-object where it must write.  `SafeFor segs v` says traversing `v` along
`segs` can never meet such an obstacle, whatever value is being written;
`indepSegs` is a syntactic independence of two parsed paths (equal, or
diverging at a segment with *different keys*) under which one write
preserves the safety of the other path.  These support the engine-level
safety theorem for claim C2. -/

/-! ### Concrete schemas and rows used by the witness theorems -/

/-- The spec's structured array-of-object example mapping. -/
def exMapLegs : Mapping :=
  ⟨"m1", "legs", .array_object, some "Route", none,
    some ⟨true, ",", some "*", none⟩,
    some [⟨"from", 0, .string⟩, ⟨"to", 1, .string⟩]⟩

/-- The spec's simple-split example mapping (`tags`). -/
def exMapTags : Mapping :=
  ⟨"m2", "tags", .array_string, some "Tags", none,
    some ⟨true, "|", none, none⟩, none⟩

/-- An `array_object` mapping whose single internal field reads token 1. -/
def exMapXs : Mapping :=
  ⟨"m3", "xs", .array_object, some "c", none, none,
    some [⟨"n", 1, .number⟩]⟩

/-- An `array_number` mapping with an enabled split transformation. -/
def exMapNs : Mapping :=
  ⟨"m4", "ns", .array_number, some "N", some "9",
    some ⟨true, ",", none, none⟩, none⟩

/-- A scalar `number` mapping on column `a`. -/
def exMapNum : Mapping :=
  ⟨"m5", "n", .number, some "a", none, none, none⟩

/-- A scalar `object` mapping on column `b`. -/
def exMapObj : Mapping :=
  ⟨"m6", "o", .object, some "b", none, none, none⟩

/-- A mapping on a missing column with empty default (skip case). -/
def exMapSkip : Mapping :=
  ⟨"m7", "gone", .string, some "missing", some "", none, none⟩

/-- A default-only string mapping. -/
def exMapDefault : Mapping :=
  ⟨"m8", "tag", .string, none, some "X", none, none⟩

/-- A row whose cells are malformed for their mapped types. -/
def exRowBad : CsvRow := [("a", "abc"), ("b", "\x7b bad json"), ("c", "A")]

theorem indepSegs_symm : ∀ p q, indepSegs p q = indepSegs q p := by
  intro p
  induction p with
  | nil => intro q; cases q <;> rfl
  | cons s ss ih =>
    intro q
    cases q with
    | nil => rfl
    | cons t ts =>
      simp only [indepSegs]
      by_cases h : s = t
      · subst h; simp [ih]
      · have h2 : ¬ t = s := fun hh => h hh.symm
        simp [h, h2, ne_comm]

theorem indepSegs_nil_right {ss : List Seg} (h : indepSegs ss [] = true) :
    ss = [] := by
  cases ss with
  | nil => rfl
  | cons s ss2 => simp [indepSegs] at h

/-! Field-lookup lemmas. -/

theorem getField_setField_self (fields : List (String × JsonValue)) (k : String)
    (v : JsonValue) : getField (setField fields k v) k = some v := by
  induction fields with
  | nil => simp [setField, getField, List.find?]
  | cons p rest ih =>
    obtain ⟨k', v'⟩ := p
    by_cases h : k' = k
    · subst h; simp [setField, getField, List.find?]
    · simp only [setField, h, if_false]
      simpa [getField, List.find?, h] using ih

theorem getField_setField_ne (fields : List (String × JsonValue)) (k k' : String)
    (v : JsonValue) (h : k' ≠ k) :
    getField (setField fields k v) k' = getField fields k' := by
  induction fields with
  | nil =>
    have hne : ¬ (k = k') := fun hh => h hh.symm
    simp [setField, getField, List.find?, hne]
  | cons p rest ih =>
    obtain ⟨k0, v0⟩ := p
    by_cases h0 : k0 = k
    · subst h0
      have : ¬ k0 = k' := fun hh => h (hh.symm)
      simp [setField, getField, List.find?, this]
    · simp only [setField, h0, if_false]
      by_cases h1 : k0 = k'
      · subst h1; simp [getField, List.find?]
      · simpa [getField, List.find?, h1] using ih

theorem arrElemsAt_setField_self (fields k v) :
    arrElemsAt (setField fields k v) k =
      (match v with | JsonValue.arr xs => xs | _ => []) := by
  simp only [arrElemsAt, getField_setField_self]
  cases v <;> rfl

theorem arrElemsAt_setField_ne (fields k k' v) (h : k' ≠ k) :
    arrElemsAt (setField fields k v) k' = arrElemsAt fields k' := by
  simp [arrElemsAt, getField_setField_ne _ _ _ _ h]

theorem childAt_setField_self (fields k v) :
    childAt (setField fields k v) k = if truthy v then v else .obj [] := by
  simp [childAt, getField_setField_self]

theorem childAt_setField_ne (fields k k' v) (h : k' ≠ k) :
    childAt (setField fields k v) k' = childAt fields k' := by
  simp [childAt, getField_setField_ne _ _ _ _ h]

/-! Shape lemmas for `setDeepSegs`. -/

theorem setDeepSegs_cons_notObj (t : Seg) (ts : List Seg) (v val : JsonValue)
    (h : ∀ g, v ≠ .obj g) : setDeepSegs (t :: ts) v val = none := by
  cases v <;> first | rfl | exact absurd rfl (h _)

theorem setDeepSegs_cons_shape (t : Seg) (ts : List Seg) (fields val w)
    (h : setDeepSegs (t :: ts) (.obj fields) val = some w) :
    ∃ X, w = .obj (setField fields t.key X) := by
  unfold setDeepSegs at h
  by_cases ha : t.isArray
  · cases ts with
    | nil =>
      simp only [ha, if_true] at h
      exact ⟨_, (Option.some_inj.mp h).symm⟩
    | cons r1 rs =>
      simp only [ha, if_true] at h
      cases hd : distribWith (fun b x =>
          if r1 :: rs = [Seg.mk "" false] then some b
          else setDeepSegs (r1 :: rs) b x)
          (arrElemsAt fields t.key) (toValsList val) with
      | none => rw [hd] at h; exact absurd h (by simp)
      | some xs => rw [hd] at h; exact ⟨_, (Option.some_inj.mp h).symm⟩
  · cases ts with
    | nil =>
      simp only [ha, if_false] at h
      exact ⟨_, (Option.some_inj.mp h).symm⟩
    | cons r1 rs =>
      simp only [ha, if_false] at h
      cases hc : setDeepSegs (r1 :: rs) (childAt fields t.key) val with
      | none => rw [hc] at h; exact absurd h (by simp)
      | some c => rw [hc] at h; exact ⟨_, (Option.some_inj.mp h).symm⟩

theorem setDeepSegs_obj_out : ∀ (segs : List Seg) (fields val w),
    setDeepSegs segs (.obj fields) val = some w → ∃ g, w = JsonValue.obj g := by
  intro segs fields val w h
  cases segs with
  | nil => exact ⟨fields, (Option.some_inj.mp h).symm⟩
  | cons t ts =>
    obtain ⟨X, hX⟩ := setDeepSegs_cons_shape t ts fields val w h
    exact ⟨_, hX⟩

theorem setDeepSegs_cons_out_obj (t : Seg) (ts : List Seg) (v val w)
    (h : setDeepSegs (t :: ts) v val = some w) : ∃ g, w = JsonValue.obj g := by
  cases v with
  | obj fields => exact setDeepSegs_obj_out _ fields val w h
  | null => simp [setDeepSegs] at h
  | bool b => simp [setDeepSegs] at h
  | num q => simp [setDeepSegs] at h
  | str s => simp [setDeepSegs] at h
  | arr xs => simp [setDeepSegs] at h

/-! Equation helpers (the definitional equations of `setDeepSegs`,
`SafeFor` and `distribWith`, specialised per case for easy rewriting). -/

theorem sds_arrLast (s : Seg) (fields val) (ha : s.isArray = true) :
    setDeepSegs [s] (.obj fields) val =
      some (.obj (setField fields s.key (.arr (toValsList val)))) := by
  obtain ⟨k, b⟩ := s
  have hb : b = true := ha
  subst hb
  rfl

theorem sds_arrCons (s : Seg) (r1 rs fields val) (ha : s.isArray = true) :
    setDeepSegs (s :: r1 :: rs) (.obj fields) val =
      match distribWith (fun b x =>
          if r1 :: rs = [Seg.mk "" false] then some b
          else setDeepSegs (r1 :: rs) b x)
          (arrElemsAt fields s.key) (toValsList val) with
      | some xs => some (.obj (setField fields s.key (.arr xs)))
      | none => none := by
  obtain ⟨k, b⟩ := s
  have hb : b = true := ha
  subst hb
  rfl

theorem sds_scLast (s : Seg) (fields val) (ha : s.isArray = false) :
    setDeepSegs [s] (.obj fields) val =
      some (.obj (setField fields s.key val)) := by
  obtain ⟨k, b⟩ := s
  have hb : b = false := ha
  subst hb
  rfl

theorem sds_scCons (s : Seg) (r1 rs fields val) (ha : s.isArray = false) :
    setDeepSegs (s :: r1 :: rs) (.obj fields) val =
      match setDeepSegs (r1 :: rs) (childAt fields s.key) val with
      | some c => some (.obj (setField fields s.key c))
      | none => none := by
  obtain ⟨k, b⟩ := s
  have hb : b = false := ha
  subst hb
  rfl

theorem safeFor_arr (s : Seg) (rest : List Seg) (fields) (ha : s.isArray = true) :
    SafeFor (s :: rest) (.obj fields) =
      (rest = [] ∨ ∀ e ∈ arrElemsAt fields s.key, truthy e = true →
        SafeFor rest e) := by
  obtain ⟨k, b⟩ := s
  have hb : b = true := ha
  subst hb
  rfl

theorem safeFor_sc (s : Seg) (rest : List Seg) (fields) (ha : s.isArray = false) :
    SafeFor (s :: rest) (.obj fields) =
      (rest = [] ∨ SafeFor rest (childAt fields s.key)) := by
  obtain ⟨k, b⟩ := s
  have hb : b = false := ha
  subst hb
  rfl

theorem safeFor_notObj (s : Seg) (rest : List Seg) (v : JsonValue)
    (h : ∀ g, v ≠ .obj g) : SafeFor (s :: rest) v = False := by
  cases v <;> first | rfl | exact absurd rfl (h _)

theorem distribWith_nil_vals (f) (elems : List JsonValue) :
    distribWith f elems [] = some elems := rfl

theorem distribWith_cons_nil (f) (v : JsonValue) (vs : List JsonValue) :
    distribWith f [] (v :: vs) =
      match f (.obj []) v with
      | some e2 =>
        match distribWith f [] vs with
        | some tl => some (e2 :: tl)
        | none => none
      | none => none := rfl

theorem distribWith_cons_cons (f) (e0 : JsonValue) (rest : List JsonValue)
    (v : JsonValue) (vs : List JsonValue) :
    distribWith f (e0 :: rest) (v :: vs) =
      match f (if truthy e0 then e0 else .obj []) v with
      | some e2 =>
        match distribWith f rest vs with
        | some tl => some (e2 :: tl)
        | none => none
      | none => none := rfl

/-! Core safety lemmas. -/

/-- A fresh object is safe for every path: every obstacle is created on
demand as `{}` or `[]`. -/
theorem safe_fresh : ∀ segs, SafeFor segs (JsonValue.obj []) := by
  intro segs
  induction segs with
  | nil => trivial
  | cons s rest ih =>
    by_cases ha : s.isArray = true
    · rw [safeFor_arr s rest [] ha]
      right
      intro e he
      simp [arrElemsAt, getField, List.find?] at he
    · rw [safeFor_sc s rest [] (by simpa using ha)]
      right
      simpa [childAt, getField, List.find?] using ih

/-- `distribWith` succeeds when every truthy existing element satisfies an
invariant `P` that guarantees success of the per-element write. -/
theorem distribWith_isSome (f : JsonValue → JsonValue → Option JsonValue)
    (P : JsonValue → Prop) (hfresh : P (.obj []))
    (hf : ∀ b x, P b → (f b x).isSome = true) :
    ∀ (vals elems : List JsonValue),
      (∀ e ∈ elems, truthy e = true → P e) →
      (distribWith f elems vals).isSome = true := by
  intro vals
  induction vals with
  | nil => intro elems _; rw [distribWith_nil_vals]; rfl
  | cons v vs ih =>
    intro elems he
    cases elems with
    | nil =>
      obtain ⟨e2, he2⟩ := Option.isSome_iff_exists.mp (hf (.obj []) v hfresh)
      obtain ⟨tl, htl⟩ := Option.isSome_iff_exists.mp
        (ih [] (by intro e h; simp at h))
      rw [distribWith_cons_nil, he2, htl]
      rfl
    | cons e0 rest =>
      have hbase : P (if truthy e0 then e0 else .obj []) := by
        by_cases h0 : truthy e0 = true
        · rw [if_pos h0]; exact he e0 (List.mem_cons_self _ _) h0
        · rw [if_neg h0]; exact hfresh
      obtain ⟨e2, he2⟩ := Option.isSome_iff_exists.mp (hf _ v hbase)
      obtain ⟨tl, htl⟩ := Option.isSome_iff_exists.mp
        (ih rest (fun e h ht => he e (List.mem_cons_of_mem _ h) ht))
      rw [distribWith_cons_cons, he2, htl]
      rfl

/-- Safety implies `setDeepSegs` succeeds, whatever value is written. -/
theorem safe_isSome : ∀ (segs : List Seg) (v : JsonValue), SafeFor segs v →
    ∀ val, (setDeepSegs segs v val).isSome = true := by
  intro segs
  induction segs with
  | nil => intro v _ val; rfl
  | cons s rest ih =>
    intro v hs val
    cases v with
    | obj fields =>
      by_cases ha : s.isArray = true
      · cases rest with
        | nil => rw [sds_arrLast s fields val ha]; rfl
        | cons r1 rs =>
          rw [safeFor_arr s (r1 :: rs) fields ha] at hs
          have hel : ∀ e ∈ arrElemsAt fields s.key, truthy e = true →
              SafeFor (r1 :: rs) e := by
            cases hs with
            | inl h => exact absurd h (by simp)
            | inr h => exact h
          obtain ⟨xs, hxs⟩ := Option.isSome_iff_exists.mp
            (distribWith_isSome (fun b x =>
                if r1 :: rs = [Seg.mk "" false] then some b
                else setDeepSegs (r1 :: rs) b x)
              (SafeFor (r1 :: rs)) (safe_fresh _)
              (fun b x hb => by
                show (if r1 :: rs = [Seg.mk "" false] then some b
                  else setDeepSegs (r1 :: rs) b x).isSome = true
                by_cases hg : r1 :: rs = [Seg.mk "" false]
                · rw [if_pos hg]; rfl
                · rw [if_neg hg]; exact ih b hb x)
              (toValsList val) (arrElemsAt fields s.key) hel)
          rw [sds_arrCons s r1 rs fields val ha, hxs]
          rfl
      · have ha2 : s.isArray = false := by simpa using ha
        cases rest with
        | nil => rw [sds_scLast s fields val ha2]; rfl
        | cons r1 rs =>
          rw [safeFor_sc s (r1 :: rs) fields ha2] at hs
          have hch : SafeFor (r1 :: rs) (childAt fields s.key) := by
            cases hs with
            | inl h => exact absurd h (by simp)
            | inr h => exact h
          obtain ⟨c, hc⟩ := Option.isSome_iff_exists.mp (ih _ hch val)
          rw [sds_scCons s r1 rs fields val ha2, hc]
          rfl
    | null => rw [safeFor_notObj _ _ _ (by intro g h; cases h)] at hs; exact hs.elim
    | bool b => rw [safeFor_notObj _ _ _ (by intro g h; cases h)] at hs; exact hs.elim
    | num q => rw [safeFor_notObj _ _ _ (by intro g h; cases h)] at hs; exact hs.elim
    | str s2 => rw [safeFor_notObj _ _ _ (by intro g h; cases h)] at hs; exact hs.elim
    | arr xs => rw [safeFor_notObj _ _ _ (by intro g h; cases h)] at hs; exact hs.elim

/-- Elements produced by `distribWith` keep an invariant `P` preserved by
the per-element write and enjoyed by fresh objects. -/
theorem distribWith_mem (f : JsonValue → JsonValue → Option JsonValue)
    (P : JsonValue → Prop) (hfresh : P (.obj []))
    (hf : ∀ b x w, P b → f b x = some w → P w) :
    ∀ (vals elems xs : List JsonValue),
      distribWith f elems vals = some xs →
      (∀ e ∈ elems, truthy e = true → P e) →
      ∀ e2 ∈ xs, truthy e2 = true → P e2 := by
  intro vals
  induction vals with
  | nil =>
    intro elems xs h he
    rw [distribWith_nil_vals] at h
    cases h
    exact he
  | cons v vs ih =>
    intro elems xs h he e2 hmem ht
    cases elems with
    | nil =>
      rw [distribWith_cons_nil] at h
      cases hfv : f (.obj []) v with
      | none => rw [hfv] at h; cases h
      | some w0 =>
        rw [hfv] at h
        cases htl : distribWith f [] vs with
        | none => rw [htl] at h; cases h
        | some tl =>
          rw [htl] at h
          cases h
          rcases List.mem_cons.mp hmem with h1 | h1
          · subst h1; exact hf _ v e2 hfresh hfv
          · exact ih [] tl htl (by intro e hh; simp at hh) e2 h1 ht
    | cons e0 rest =>
      rw [distribWith_cons_cons] at h
      cases hfv : f (if truthy e0 then e0 else .obj []) v with
      | none => rw [hfv] at h; cases h
      | some w0 =>
        rw [hfv] at h
        cases htl : distribWith f rest vs with
        | none => rw [htl] at h; cases h
        | some tl =>
          rw [htl] at h
          cases h
          rcases List.mem_cons.mp hmem with h1 | h1
          · subst h1
            have hbase : P (if truthy e0 then e0 else .obj []) := by
              by_cases h0 : truthy e0 = true
              · rw [if_pos h0]; exact he e0 (List.mem_cons_self _ _) h0
              · rw [if_neg h0]; exact hfresh
            exact hf _ v e2 hbase hfv
          · exact ih rest tl htl
              (fun e hh hht => he e (List.mem_cons_of_mem _ hh) hht) e2 h1 ht

/-- The central preservation lemma: writing along `q` keeps every
independent path `p` safe. -/
theorem safe_preserved : ∀ (q p : List Seg) (v val w : JsonValue),
    indepSegs p q = true → SafeFor p v → setDeepSegs q v val = some w →
    SafeFor p w := by
  intro q
  induction q with
  | nil =>
    intro p v val w _ hp h
    cases h
    exact hp
  | cons t ts ih =>
    intro p v val w hind hp h
    cases p with
    | nil => trivial
    | cons s ss =>
      cases v with
      | obj fields =>
        by_cases hst : s = t
        · subst hst
          have hind2 : indepSegs ss ts = true := by
            simpa [indepSegs] using hind
          by_cases ha : s.isArray = true
          · cases ts with
            | nil =>
              have hss : ss = [] := indepSegs_nil_right hind2
              subst hss
              rw [sds_arrLast s fields val ha] at h
              cases h
              rw [safeFor_arr s [] _ ha]
              exact Or.inl rfl
            | cons t1 ts2 =>
              rw [sds_arrCons s t1 ts2 fields val ha] at h
              cases hd : distribWith (fun b x =>
                  if t1 :: ts2 = [Seg.mk "" false] then some b
                  else setDeepSegs (t1 :: ts2) b x)
                  (arrElemsAt fields s.key) (toValsList val) with
              | none => rw [hd] at h; cases h
              | some xs =>
                rw [hd] at h
                cases h
                rw [safeFor_arr s ss _ ha]
                cases ss with
                | nil => exact Or.inl rfl
                | cons s1 ss2 =>
                  right
                  rw [safeFor_arr s (s1 :: ss2) fields ha] at hp
                  have hel : ∀ e ∈ arrElemsAt fields s.key, truthy e = true →
                      SafeFor (s1 :: ss2) e := by
                    cases hp with
                    | inl hh => exact absurd hh (by simp)
                    | inr hh => exact hh
                  have hmem := distribWith_mem
                    (fun b x =>
                      if t1 :: ts2 = [Seg.mk "" false] then some b
                      else setDeepSegs (t1 :: ts2) b x)
                    (SafeFor (s1 :: ss2)) (safe_fresh _)
                    (fun b x w2 hb hw => by
                      have hw2 : (if t1 :: ts2 = [Seg.mk "" false] then some b
                          else setDeepSegs (t1 :: ts2) b x) = some w2 := hw
                      by_cases hg : t1 :: ts2 = [Seg.mk "" false]
                      · rw [if_pos hg] at hw2
                        cases hw2
                        exact hb
                      · rw [if_neg hg] at hw2
                        exact ih (s1 :: ss2) b x w2 hind2 hb hw2)
                    (toValsList val) (arrElemsAt fields s.key) xs hd hel
                  intro e2 he2 ht2
                  rw [arrElemsAt_setField_self] at he2
                  exact hmem e2 he2 ht2
          · have ha2 : s.isArray = false := by simpa using ha
            cases ts with
            | nil =>
              have hss : ss = [] := indepSegs_nil_right hind2
              subst hss
              rw [sds_scLast s fields val ha2] at h
              cases h
              rw [safeFor_sc s [] _ ha2]
              exact Or.inl rfl
            | cons t1 ts2 =>
              rw [sds_scCons s t1 ts2 fields val ha2] at h
              cases hc : setDeepSegs (t1 :: ts2) (childAt fields s.key) val with
              | none => rw [hc] at h; cases h
              | some c =>
                rw [hc] at h
                cases h
                rw [safeFor_sc s ss _ ha2]
                cases ss with
                | nil => exact Or.inl rfl
                | cons s1 ss2 =>
                  right
                  rw [safeFor_sc s (s1 :: ss2) fields ha2] at hp
                  have hch : SafeFor (s1 :: ss2) (childAt fields s.key) := by
                    cases hp with
                    | inl hh => exact absurd hh (by simp)
                    | inr hh => exact hh
                  obtain ⟨g, hg⟩ := setDeepSegs_cons_out_obj t1 ts2 _ val c hc
                  have htc : truthy c = true := by rw [hg]; rfl
                  rw [childAt_setField_self, if_pos htc]
                  exact ih (s1 :: ss2) _ val c hind2 hch hc
        · have hkey : s.key ≠ t.key := by
            by_cases hk : s.key = t.key
            · exfalso
              simp only [indepSegs, if_neg hst] at hind
              exact (of_decide_eq_true hind) hk
            · exact hk
          obtain ⟨X, hX⟩ := setDeepSegs_cons_shape t ts fields val w h
          subst hX
          by_cases ha : s.isArray = true
          · rw [safeFor_arr s ss _ ha] at hp ⊢
            rw [arrElemsAt_setField_ne fields t.key s.key X hkey]
            exact hp
          · have ha2 : s.isArray = false := by simpa using ha
            rw [safeFor_sc s ss _ ha2] at hp ⊢
            rw [childAt_setField_ne fields t.key s.key X hkey]
            exact hp
      | null =>
        rw [safeFor_notObj _ _ _ (by intro g hh; cases hh)] at hp; exact hp.elim
      | bool b =>
        rw [safeFor_notObj _ _ _ (by intro g hh; cases hh)] at hp; exact hp.elim
      | num q2 =>
        rw [safeFor_notObj _ _ _ (by intro g hh; cases hh)] at hp; exact hp.elim
      | str s2 =>
        rw [safeFor_notObj _ _ _ (by intro g hh; cases hh)] at hp; exact hp.elim
      | arr xs =>
        rw [safeFor_notObj _ _ _ (by intro g hh; cases hh)] at hp; exact hp.elim

theorem SafeP_fresh (path : String) : SafeP path (.obj []) :=
  Or.inr (safe_fresh _)

/-- A safe `setDeep` write on an object succeeds and returns an object. -/
theorem setDeep_safe_some (path : String) (f : List (String × JsonValue))
    (val : JsonValue) (hs : SafeP path (.obj f)) :
    ∃ g, setDeep (.obj f) path val = some (.obj g) := by
  by_cases hp : path = ""
  · exact ⟨f, by simp [setDeep, hp]⟩
  · have hsf : SafeFor (segsOf path) (.obj f) := by
      cases hs with
      | inl h => exact absurd h hp
      | inr h => exact h
    obtain ⟨w, hw⟩ := Option.isSome_iff_exists.mp (safe_isSome _ _ hsf val)
    obtain ⟨g, hg⟩ := setDeepSegs_obj_out (segsOf path) f val w hw
    subst hg
    exact ⟨g, by simp [setDeep, hp, hw]⟩

/-- A `setDeep` write along `pw` preserves path-safety of any independent
path `pp`. -/
theorem setDeep_preserves (pw pp : String) (v val w : JsonValue)
    (h : setDeep v pw val = some w) (hs : SafeP pp v)
    (hok : pathOK pw pp = true) : SafeP pp w := by
  by_cases hpp : pp = ""
  · exact Or.inl hpp
  · by_cases hpw : pw = ""
    · simp [setDeep, hpw] at h
      subst h
      exact hs
    · have hsf : SafeFor (segsOf pp) v := by
        cases hs with
        | inl hh => exact absurd hh hpp
        | inr hh => exact hh
      have hind : indepSegs (segsOf pw) (segsOf pp) = true := by
        simp only [pathOK, Bool.or_eq_true, decide_eq_true_eq] at hok
        rcases hok with (h1 | h2) | h3
        · exact absurd h1 hpw
        · exact absurd h2 hpp
        · exact h3
      have h2 : setDeepSegs (segsOf pw) v val = some w := by
        simpa [setDeep, hpw] using h
      exact Or.inr (safe_preserved (segsOf pw) (segsOf pp) v val w
        ((indepSegs_symm _ _).trans hind) hsf h2)

/-- Folding object-producing, safety-preserving steps over pairwise
independent paths succeeds and yields an object. -/
theorem foldlM_safe {α : Type} (paths : α → String)
    (step : JsonValue → α → Option JsonValue) :
    ∀ (l : List α) (f : List (String × JsonValue)),
      (∀ a ∈ l, ∀ g, SafeP (paths a) (.obj g) →
        ∃ g2, step (.obj g) a = some (.obj g2)) →
      (∀ a ∈ l, ∀ g w p, step (.obj g) a = some w → SafeP p (.obj g) →
        pathOK (paths a) p = true → SafeP p w) →
      (∀ a ∈ l, SafeP (paths a) (.obj f)) →
      pairwiseB (fun a b => pathOK (paths a) (paths b)) l = true →
      ∃ g, List.foldlM step (JsonValue.obj f) l = some (.obj g) := by
  intro l
  induction l with
  | nil => intro f _ _ _ _; exact ⟨f, rfl⟩
  | cons a as ih =>
    intro f hsome hpres hsafe hpw
    obtain ⟨hall, hpw2⟩ : as.all (fun b => pathOK (paths a) (paths b)) = true ∧
        pairwiseB (fun x y => pathOK (paths x) (paths y)) as = true := by
      simpa [pairwiseB, Bool.and_eq_true] using hpw
    obtain ⟨g1, hg1⟩ := hsome a (List.mem_cons_self _ _) f
      (hsafe a (List.mem_cons_self _ _))
    have hsafe2 : ∀ b ∈ as, SafeP (paths b) (.obj g1) := by
      intro b hb
      exact hpres a (List.mem_cons_self _ _) f (.obj g1) (paths b) hg1
        (hsafe b (List.mem_cons_of_mem _ hb))
        (by exact List.all_eq_true.mp hall b hb)
    obtain ⟨g2, hg2⟩ := ih g1
      (fun b hb => hsome b (List.mem_cons_of_mem _ hb))
      (fun b hb => hpres b (List.mem_cons_of_mem _ hb))
      hsafe2 hpw2
    refine ⟨g2, ?_⟩
    rw [List.foldlM_cons, hg1]
    simpa using hg2

/-! Equation lemmas for `applyMapping` (it is not recursive, so `simp`
unfolds it cleanly given the resolution result and the branch condition). -/

theorem applyMapping_eq_skip (row : CsvRow) (body : JsonValue) (m : Mapping)
    (h : resolveRaw row m = none) : applyMapping row body m = some body := by
  simp [applyMapping, h]

theorem applyMapping_eq_structured (row : CsvRow) (body : JsonValue) (m : Mapping)
    (raw : String) (h : resolveRaw row m = some raw)
    (hcond : m.dataType = DataType.array_object ∧ headerTruthy m = true) :
    applyMapping row body m =
      match structuredValue m raw with
      | some fv => setDeep body m.jsonPath fv
      | none => none := by
  simp [applyMapping, h, hcond]

theorem applyMapping_eq_generic (row : CsvRow) (body : JsonValue) (m : Mapping)
    (raw : String) (h : resolveRaw row m = some raw)
    (hcond : ¬ (m.dataType = DataType.array_object ∧ headerTruthy m = true)) :
    applyMapping row body m =
      setDeep body m.jsonPath
        (match m.transformation with
         | some t =>
           if t.enabled then
             .arr ((genericParts t raw).map fun s => castValue s m.dataType)
           else scalarFinal m raw
         | none => scalarFinal m raw) := by
  simp [applyMapping, h, hcond]

/-- `optionMapM` succeeds when every element does. -/
theorem optionMapM_isSome {α β : Type} (f : α → Option β) :
    ∀ l : List α, (∀ x ∈ l, (f x).isSome = true) →
      (optionMapM f l).isSome = true := by
  intro l
  induction l with
  | nil => intro _; rfl
  | cons x xs ih =>
    intro hall
    obtain ⟨y, hy⟩ := Option.isSome_iff_exists.mp
      (hall x (List.mem_cons_self _ _))
    obtain ⟨ys, hys⟩ := Option.isSome_iff_exists.mp
      (ih (fun z hz => hall z (List.mem_cons_of_mem _ hz)))
    simp [optionMapM, hy, hys]

/-- A well-formed `internalFields` list always yields an item object. -/
theorem buildItem_some (fs : List InternalFieldMapping) (values : List String)
    (hok : pairwiseB (fun f g => pathOK f.key g.key) fs = true) :
    ∃ g, buildItem fs values = some (.obj g) :=
  foldlM_safe InternalFieldMapping.key
    (fun b f => setDeep b f.key (fieldVal values f)) fs []
    (fun f _ g hs => setDeep_safe_some f.key g (fieldVal values f) hs)
    (fun f _ g w p hw hs hpq => setDeep_preserves f.key p (.obj g) _ w hw hs hpq)
    (fun f _ => SafeP_fresh _) hok

theorem structuredItem_isSome (m : Mapping) (rawItem : String)
    (hok : mappingOKB m = true) : (structuredItem m rawItem).isSome = true := by
  unfold structuredItem
  cases hif : m.internalFields with
  | none => rfl
  | some fs =>
    by_cases hlen : fs.length > 0
    · have hp : pairwiseB (fun f g => pathOK f.key g.key) fs = true := by
        unfold mappingOKB at hok
        rw [hif] at hok
        exact hok
      obtain ⟨g, hg⟩ := buildItem_some fs
        ((jsSplit (stripWrapping (jsTrim rawItem)) (itemSepOf m.transformation)).map jsTrim) hp
      simp [hlen, hg]
    · simp [hlen]

theorem structuredValue_isSome (m : Mapping) (rawValue : String)
    (hok : mappingOKB m = true) : (structuredValue m rawValue).isSome = true := by
  unfold structuredValue
  obtain ⟨ys, hys⟩ := Option.isSome_iff_exists.mp
    (optionMapM_isSome (structuredItem m)
      (jsSplit rawValue (sepOf m.transformation))
      (fun x _ => structuredItem_isSome m x hok))
  simp [hys]

/-- One well-formed mapping step succeeds on any object body whose
`jsonPath` is safe, and produces an object. -/
theorem applyMapping_safe_some (row : CsvRow) (m : Mapping)
    (g : List (String × JsonValue)) (hok : mappingOKB m = true)
    (hs : SafeP m.jsonPath (.obj g)) :
    ∃ g2, applyMapping row (.obj g) m = some (.obj g2) := by
  cases hr : resolveRaw row m with
  | none => exact ⟨g, applyMapping_eq_skip row _ m hr⟩
  | some raw =>
    by_cases hcond : m.dataType = DataType.array_object ∧ headerTruthy m = true
    · rw [applyMapping_eq_structured row _ m raw hr hcond]
      obtain ⟨fv, hfv⟩ := Option.isSome_iff_exists.mp
        (structuredValue_isSome m raw hok)
      rw [hfv]
      exact setDeep_safe_some m.jsonPath g fv hs
    · rw [applyMapping_eq_generic row _ m raw hr hcond]
      exact setDeep_safe_some m.jsonPath g _ hs

/-- One mapping step preserves the safety of every independent path. -/
theorem applyMapping_preserves (row : CsvRow) (m : Mapping)
    (g : List (String × JsonValue)) (w : JsonValue) (p : String)
    (h : applyMapping row (.obj g) m = some w) (hs : SafeP p (.obj g))
    (hok : pathOK m.jsonPath p = true) : SafeP p w := by
  cases hr : resolveRaw row m with
  | none =>
    rw [applyMapping_eq_skip row _ m hr] at h
    cases h
    exact hs
  | some raw =>
    by_cases hcond : m.dataType = DataType.array_object ∧ headerTruthy m = true
    · rw [applyMapping_eq_structured row _ m raw hr hcond] at h
      cases hfv : structuredValue m raw with
      | none => rw [hfv] at h; cases h
      | some fv =>
        rw [hfv] at h
        exact setDeep_preserves m.jsonPath p (.obj g) fv w h hs hok
    · rw [applyMapping_eq_generic row _ m raw hr hcond] at h
      exact setDeep_preserves m.jsonPath p (.obj g) _ w h hs hok

/-- Safety of the payload engine (claim C2): on a structurally well-formed
mapping list, `constructPayload` returns an object for **every** row —
whatever the cell contents (unparseable numbers or JSON, missing columns,
out-of-range positional indices all degrade, none abort). -/
theorem constructPayload_wf_total (ms : List Mapping) (row : CsvRow)
    (h : wellFormedB ms = true) :
    ∃ g, constructPayload row ms = some (JsonValue.obj g) := by
  obtain ⟨hall, hpw⟩ : ms.all mappingOKB = true ∧
      pairwiseB (fun a b => pathOK a.jsonPath b.jsonPath) ms = true := by
    simpa [wellFormedB, Bool.and_eq_true] using h
  exact foldlM_safe Mapping.jsonPath (applyMapping row) ms []
    (fun m hm g hs =>
      applyMapping_safe_some row m g (List.all_eq_true.mp hall m hm) hs)
    (fun m _ g w p hw hs hok => applyMapping_preserves row m g w p hw hs hok)
    (fun m _ => SafeP_fresh _) hpw

/-! ### Claim theorems -/

/-- C1: structured array-of-object decomposition.  For every row and every
mapping with `dataType 'array_object'`, a set (truthy) `csvHeader` whose row
value is defined, and a non-empty `internalFields` list, the raw value is
split on the (defaulted) separator; each item is trimmed, stripped of
wrapping brackets and split on the (defaulted) item separator into trimmed
tokens; one object per item is built from `internalFields`, and the
resulting list is written at `m.jsonPath`.  (The concrete
`"(HAN*SGN),(HAN*AAA)"` example is the witness theorem.) -/
theorem structured_array_object_decomposition
    (row : CsvRow) (body : JsonValue) (m : Mapping) (h raw : String)
    (fs : List InternalFieldMapping)
    (hdt : m.dataType = DataType.array_object) (hch : m.csvHeader = some h)
    (hh : h ≠ "") (hrow : rowGet row h = some raw)
    (hif : m.internalFields = some fs) (hfs : fs ≠ []) :
    applyMapping row body m =
      match optionMapM
          (fun rawItem => buildItem fs
            ((jsSplit (stripWrapping (jsTrim rawItem))
              (itemSepOf m.transformation)).map jsTrim))
          (jsSplit raw (sepOf m.transformation)) with
      | some items => setDeep body m.jsonPath (.arr items)
      | none => none := by
  have hres : resolveRaw row m = some raw := by
    simp [resolveRaw, hch, hh, hrow]
  have hcond : m.dataType = DataType.array_object ∧ headerTruthy m = true :=
    ⟨hdt, by simp [headerTruthy, hch, hh]⟩
  rw [applyMapping_eq_structured row body m raw hres hcond]
  have hlen : fs.length > 0 := List.length_pos.mpr hfs
  have hitem : structuredItem m = fun rawItem => buildItem fs
      ((jsSplit (stripWrapping (jsTrim rawItem))
        (itemSepOf m.transformation)).map jsTrim) := by
    funext rawItem
    simp [structuredItem, hif, hlen]
  unfold structuredValue
  rw [hitem]
  cases hx : optionMapM
      (fun rawItem => buildItem fs
        ((jsSplit (stripWrapping (jsTrim rawItem))
          (itemSepOf m.transformation)).map jsTrim))
      (jsSplit raw (sepOf m.transformation)) with
  | none => simp [hx]
  | some items => simp [hx]

/-- C1 witness: the spec's concrete example, end to end, plus the general
theorem instantiated at it. -/
theorem structured_array_object_decomposition_witness :
    constructPayload [("Route", "(HAN*SGN),(HAN*AAA)")] [exMapLegs] =
      some (.obj [("legs", .arr
        [.obj [("from", .str "HAN"), ("to", .str "SGN")],
         .obj [("from", .str "HAN"), ("to", .str "AAA")]])]) ∧
    applyMapping [("Route", "(HAN*SGN),(HAN*AAA)")] (.obj []) exMapLegs =
      match optionMapM
          (fun rawItem => buildItem [⟨"from", 0, .string⟩, ⟨"to", 1, .string⟩]
            ((jsSplit (stripWrapping (jsTrim rawItem))
              (itemSepOf exMapLegs.transformation)).map jsTrim))
          (jsSplit "(HAN*SGN),(HAN*AAA)" (sepOf exMapLegs.transformation)) with
      | some items => setDeep (.obj []) exMapLegs.jsonPath (.arr items)
      | none => none :=
  ⟨by rfl,
   structured_array_object_decomposition [("Route", "(HAN*SGN),(HAN*AAA)")]
     (.obj []) exMapLegs "Route" "(HAN*SGN),(HAN*AAA)"
     [⟨"from", 0, .string⟩, ⟨"to", 1, .string⟩]
     rfl rfl (by decide) rfl rfl (by decide)⟩

/-- C2 witness: a well-formed four-mapping schema applied to a row whose
cells are all malformed for their types (unparseable number, bad JSON,
out-of-range positional index, missing column) still yields an object. -/
theorem constructPayload_wf_total_witness :
    wellFormedB [exMapNum, exMapObj, exMapXs, exMapSkip] = true ∧
    ∃ g, constructPayload exRowBad [exMapNum, exMapObj, exMapXs, exMapSkip] =
      some (JsonValue.obj g) :=
  ⟨by decide,
   constructPayload_wf_total [exMapNum, exMapObj, exMapXs, exMapSkip] exRowBad
     (by decide)⟩

/-- Helper for C3: distributing into an empty (or fresh) array is exactly a
per-value map of the recursive write into fresh objects. -/
theorem distribWith_nil_elems (f : JsonValue → JsonValue → Option JsonValue) :
    ∀ vals, distribWith f [] vals =
      optionMapM (fun v => f (JsonValue.obj []) v) vals := by
  intro vals
  induction vals with
  | nil => rfl
  | cons v vs ih =>
    rw [distribWith_cons_nil, ih]
    cases hfv : f (.obj []) v with
    | none => simp [optionMapM, hfv]
    | some y =>
      cases hvs : optionMapM (fun v => f (JsonValue.obj []) v) vs with
      | none => simp [optionMapM, hfv, hvs]
      | some tl => simp [optionMapM, hfv, hvs]

/-- Helper: mapping a constant success over `Option` collects the images. -/
theorem optionMapM_const_some {α β : Type} (c : β) :
    ∀ l : List α, optionMapM (fun _ => some c) l = some (l.map (fun _ => c)) := by
  intro l
  induction l with
  | nil => rfl
  | cons x xs ih => simp [optionMapM, ih]

/-- C3 counterexample: the claimed distribution law fails when the segments
after the array marker join back to the empty path.  On `"items[]."` the
source's recursion `setDeep(arrayRef[i], '', val)` no-ops via the
`if (!path) return` guard, so the code produces `{items: [{}, {}]}` — the
i-th value is *not* distributed into the i-th object (which the claimed law
would render as `{items: [{"": 1}, {"": 2}]}`). -/
theorem setDeep_trailing_empty_cex :
    setDeep (.obj []) "items[]." (.arr [.num 1, .num 2]) =
      some (.obj [("items", .arr [.obj [], .obj []])]) ∧
    setDeep (.obj []) "items[]." (.arr [.num 1, .num 2]) ≠
      some (.obj [("items", .arr
        [.obj [("", .num 1)], .obj [("", .num 2)]])]) := by
  constructor
  · rfl
  · intro h
    rw [(by rfl : setDeep (.obj []) "items[]." (.arr [.num 1, .num 2]) =
      some (.obj [("items", .arr [.obj [], .obj []])]))] at h
    simp at h

/-- C3 amended: `setDeep` write semantics.  Nested dotted paths create
intermediate objects (`setDeep {} "a.b.c" 5`); for a non-final
array-expansion segment whose remaining path is non-empty, `setDeep`
distributes the i-th element of the value list into the i-th (fresh) object
of the array; when the remaining segments join back to the *empty* path
(a trailing empty segment, e.g. `"items[]."`) the recursion re-enters the
source's `if (!path) return` guard, so the array elements are ensured to
exist but receive no write; a final array segment assigns the list-coerced
value directly. -/
theorem setDeep_write_semantics :
    setDeep (.obj []) "a.b.c" (.num 5) =
      some (.obj [("a", .obj [("b", .obj [("c", .num 5)])])]) ∧
    setDeep (.obj []) "items[].id" (.arr [.num 1, .num 2]) =
      some (.obj [("items", .arr
        [.obj [("id", .num 1)], .obj [("id", .num 2)]])]) ∧
    (∀ (k : String) (rest : List Seg) (vals : List JsonValue),
      rest ≠ [] → rest ≠ [Seg.mk "" false] →
      setDeepSegs (⟨k, true⟩ :: rest) (.obj []) (.arr vals) =
        (optionMapM (fun v => setDeepSegs rest (.obj []) v) vals).map
          (fun xs => .obj [(k, .arr xs)])) ∧
    (∀ (k : String) (vals : List JsonValue),
      setDeepSegs [⟨k, true⟩, ⟨"", false⟩] (.obj []) (.arr vals) =
        some (.obj [(k, .arr (vals.map (fun _ => .obj [])))])) ∧
    (∀ (k : String) (v : JsonValue),
      setDeepSegs [⟨k, true⟩] (.obj []) v =
        some (.obj [(k, .arr (toValsList v))])) := by
  refine ⟨by rfl, by rfl, ?_, ?_, ?_⟩
  · intro k rest vals hrest hne
    cases rest with
    | nil => exact absurd rfl hrest
    | cons r1 rs =>
      rw [sds_arrCons ⟨k, true⟩ r1 rs [] (.arr vals) rfl]
      have he : arrElemsAt [] k = [] := rfl
      have hv : toValsList (.arr vals) = vals := rfl
      have hfn : (fun b x =>
          if r1 :: rs = [Seg.mk "" false] then some b
          else setDeepSegs (r1 :: rs) b x) =
          fun b x => setDeepSegs (r1 :: rs) b x := by
        funext b x
        rw [if_neg hne]
      rw [he, hv, hfn, distribWith_nil_elems]
      cases hx : optionMapM (fun v => setDeepSegs (r1 :: rs) (.obj []) v) vals with
      | none => simp [hx]
      | some xs => simp [hx, setField]
  · intro k vals
    rw [sds_arrCons ⟨k, true⟩ ⟨"", false⟩ [] [] (.arr vals) rfl]
    have he : arrElemsAt [] k = [] := rfl
    have hv : toValsList (.arr vals) = vals := rfl
    have hfn : (fun b x =>
        if (⟨"", false⟩ : Seg) :: ([] : List Seg) = [Seg.mk "" false] then some b
        else setDeepSegs (⟨"", false⟩ :: []) b x) =
        fun b (_ : JsonValue) => some b := by
      funext b x
      rw [if_pos rfl]
    rw [he, hv, hfn, distribWith_nil_elems]
    simp only [optionMapM_const_some]
    simp [setField]
  · intro k v
    rw [sds_arrLast ⟨k, true⟩ [] v rfl]
    rfl

/-- C3 witness: the distribution clause instantiated at the
`"items[].id"`/`[1,2]` example, and the no-op corner at `"items[]."`. -/
theorem setDeep_write_semantics_witness :
    (setDeepSegs [⟨"items", true⟩, ⟨"id", false⟩] (.obj []) (.arr [.num 1, .num 2]) =
      (optionMapM (fun v => setDeepSegs [⟨"id", false⟩] (.obj []) v)
        [.num 1, .num 2]).map (fun xs => .obj [("items", .arr xs)])) ∧
    setDeepSegs [⟨"items", true⟩, ⟨"", false⟩] (.obj []) (.arr [.num 1, .num 2]) =
      some (.obj [("items", .arr
        [.obj [], .obj []])]) :=
  ⟨setDeep_write_semantics.2.2.1 "items" [⟨"id", false⟩] [.num 1, .num 2]
     (by decide) (by decide),
   setDeep_write_semantics.2.2.2.1 "items" [.num 1, .num 2]⟩

/-- C4: raw value resolution order.  (1) A truthy `csvHeader` whose column
is defined wins, whatever the default; (2) otherwise a non-empty
`defaultValue` supplies the raw value; (3) with a missing column and an
empty/absent default the mapping is skipped entirely (no key is written);
(4) a default-only plain string mapping yields the (trimmed) default for
every row. -/
theorem raw_value_resolution :
    (∀ (row : CsvRow) (m : Mapping) (h v : String),
      m.csvHeader = some h → h ≠ "" → rowGet row h = some v →
      resolveRaw row m = some v) ∧
    (∀ (row : CsvRow) (m : Mapping) (h d : String),
      m.csvHeader = some h → rowGet row h = none →
      m.defaultValue = some d → d ≠ "" → resolveRaw row m = some d) ∧
    (∀ (row : CsvRow) (body : JsonValue) (m : Mapping) (h : String),
      m.csvHeader = some h → rowGet row h = none →
      (m.defaultValue = none ∨ m.defaultValue = some "") →
      applyMapping row body m = some body) ∧
    (∀ (row : CsvRow) (body : JsonValue) (m : Mapping) (d : String),
      m.csvHeader = none → m.defaultValue = some d → d ≠ "" →
      m.dataType = DataType.string → m.transformation = none →
      applyMapping row body m = setDeep body m.jsonPath (.str (jsTrim d))) := by
  refine ⟨?_, ?_, ?_, ?_⟩
  · intro row m h v hch hh hv
    simp [resolveRaw, hch, hh, hv]
  · intro row m h d hch hv hd hne
    by_cases hh : h = "" <;> simp [resolveRaw, resolveDefault, hch, hh, hv, hd, hne]
  · intro row body m h hch hv hd
    have hres : resolveRaw row m = none := by
      rcases hd with hd | hd <;>
        by_cases hh : h = "" <;>
        simp [resolveRaw, resolveDefault, hch, hh, hv, hd]
    exact applyMapping_eq_skip row body m hres
  · intro row body m d hch hd hne hdt htr
    have hres : resolveRaw row m = some d := by
      simp [resolveRaw, resolveDefault, hch, hd, hne]
    have hcond : ¬ (m.dataType = DataType.array_object ∧ headerTruthy m = true) := by
      intro ⟨h1, _⟩
      rw [hdt] at h1
      cases h1
    rw [applyMapping_eq_generic row body m d hres hcond, htr]
    simp [scalarFinal, hdt, DataType.isArrayType, castValue]

/-- C4 witness: the three observable behaviours at concrete inputs. -/
theorem raw_value_resolution_witness :
    resolveRaw [("a", "abc")] exMapNum = some "abc" ∧
    applyMapping [] (.obj [("keep", .num 1)]) exMapSkip =
      some (.obj [("keep", .num 1)]) ∧
    applyMapping [("Tags", "ignored")] (.obj []) exMapDefault =
      setDeep (.obj []) exMapDefault.jsonPath (.str (jsTrim "X")) :=
  ⟨raw_value_resolution.1 [("a", "abc")] exMapNum "a" "abc" rfl (by decide) rfl,
   raw_value_resolution.2.2.1 [] (.obj [("keep", .num 1)]) exMapSkip "missing"
     rfl rfl (Or.inr rfl),
   raw_value_resolution.2.2.2 [("Tags", "ignored")] (.obj []) exMapDefault "X"
     rfl rfl (by decide) rfl rfl⟩

/-- C5 counterexample: the generic transformation branch does **not** filter
empty parts.  On row `{Tags: "a||b"}` with separator `|` the engine keeps
the empty middle part, contradicting the claimed filtering. -/
theorem simple_split_filter_cex :
    constructPayload [("Tags", "a||b")] [exMapTags] =
      some (.obj [("tags", .arr [.str "a", .str "", .str "b"])]) ∧
    constructPayload [("Tags", "a||b")] [exMapTags] ≠
      some (.obj [("tags", .arr [.str "a", .str "b"])]) := by
  constructor
  · rfl
  · intro h
    rw [(by rfl : constructPayload [("Tags", "a||b")] [exMapTags] =
      some (.obj [("tags", .arr [.str "a", .str "", .str "b"])]))] at h
    simp at h

/-- C5 amended: in the generic transformation branch the raw string is split
on the separator and each part trimmed, with empty parts *kept* (no
filtering happens in either branch); the spec's concrete example still
holds because it produces no empty parts. -/
theorem simple_split_no_filter
    (row : CsvRow) (body : JsonValue) (m : Mapping) (raw : String)
    (t : TransformationConfig)
    (hres : resolveRaw row m = some raw)
    (hcond : ¬ (m.dataType = DataType.array_object ∧ headerTruthy m = true))
    (htr : m.transformation = some t) (hen : t.enabled = true)
    (hisep : t.itemSeparator = none) :
    applyMapping row body m =
      setDeep body m.jsonPath
        (.arr (((jsSplit raw (if t.separator = "" then "," else t.separator)).map
          jsTrim).map (fun s => castValue s m.dataType))) := by
  rw [applyMapping_eq_generic row body m raw hres hcond, htr]
  simp [hen, genericParts, hisep]

/-- C5 witness: the amended statement at the spec's example row, plus the
spec example's end-to-end result. -/
theorem simple_split_no_filter_witness :
    applyMapping [("Tags", "a | b |c")] (.obj []) exMapTags =
      setDeep (.obj []) exMapTags.jsonPath
        (.arr (((jsSplit "a | b |c" (if ("|" : String) = "" then "," else "|")).map
          jsTrim).map (fun s => castValue s exMapTags.dataType))) ∧
    constructPayload [("Tags", "a | b |c")] [exMapTags] =
      some (.obj [("tags", .arr [.str "a", .str "b", .str "c"])]) :=
  ⟨simple_split_no_filter [("Tags", "a | b |c")] (.obj []) exMapTags "a | b |c"
     ⟨true, "|", none, none⟩ rfl (by decide) rfl rfl rfl,
   by rfl⟩

/-- C6 counterexample: for an internal field whose index is out of range the
engine writes the *raw* empty string, not `castValue('', 'number') = 0`: on
row `{c: "A"}` (one token) the `number`-typed field at index 1 becomes
`""`, not `0`. -/
theorem out_of_range_internal_cex :
    constructPayload [("c", "A")] [exMapXs] =
      some (.obj [("xs", .arr [.obj [("n", .str "")]])]) ∧
    castValue "" DataType.number = .num 0 ∧
    constructPayload [("c", "A")] [exMapXs] ≠
      some (.obj [("xs", .arr [.obj [("n", castValue "" DataType.number)]])]) := by
  refine ⟨by rfl, by rfl, ?_⟩
  intro h
  rw [(by rfl : castValue "" DataType.number = JsonValue.num 0),
    (by rfl : constructPayload [("c", "A")] [exMapXs] =
      some (.obj [("xs", .arr [.obj [("n", .str "")]])]))] at h
  simp at h

/-- C6 amended: an out-of-range internal field index yields the raw empty
string `''`, written *uncast* (so a `number`-typed entry receives `""`, not
`0`; the claimed behaviour coincides with the code only for `string`-typed
entries). -/
theorem out_of_range_internal_uncast
    (values : List String) (f : InternalFieldMapping)
    (h : values.length ≤ f.index) :
    fieldVal values f = .str "" ∧
    (f.dataType = DataType.string → fieldVal values f = castValue "" f.dataType) := by
  have hnone : values.get? f.index = none := List.get?_eq_none.mpr h
  constructor
  · unfold fieldVal
    rw [hnone]
  · intro hdt
    unfold fieldVal
    rw [hnone, hdt]
    rfl

/-- C6 witness: the amended statement at the counterexample's input. -/
theorem out_of_range_internal_uncast_witness :
    fieldVal ["A"] ⟨"n", 1, DataType.number⟩ = .str "" ∧
    (DataType.number = DataType.string →
      fieldVal ["A"] ⟨"n", 1, DataType.number⟩ = castValue "" DataType.number) :=
  out_of_range_internal_uncast ["A"] ⟨"n", 1, DataType.number⟩ (by decide)

/-- C7: the Type Caster's swallow-and-default policy.  `castValue` is total
(it never raises); for `number` it yields `0` on an empty or unparseable
trimmed input and the parsed rational otherwise (never `NaN`, which is not
even representable here); `castValue "12.5" number = 12.5`; for `object`
and `array_object` an empty or JSON-invalid trimmed input degrades to `{}`
respectively `[]`. -/
theorem castValue_swallow_and_default :
    (∀ s : String, jsTrim s = "" ∨ jsNumber (jsTrim s) = none →
      castValue s .number = .num 0) ∧
    (∀ (s : String) (q : ℚ), jsNumber (jsTrim s) = some q → jsTrim s ≠ "" →
      castValue s .number = .num q) ∧
    castValue "12.5" .number = .num (25 / 2 : ℚ) ∧
    (∀ s : String, jsTrim s = "" ∨ jsonParse (jsTrim s) = none →
      castValue s .object = .obj []) ∧
    (∀ s : String, jsTrim s = "" ∨ jsonParse (jsTrim s) = none →
      castValue s .array_object = .arr []) := by
  refine ⟨?_, ?_, ?_, ?_, ?_⟩
  · intro s hc
    by_cases he : jsTrim s = ""
    · simp [castValue, he]
    · rcases hc with hc | hc
      · exact absurd hc he
      · simp [castValue, he, hc]
  · intro s q hq hne
    simp [castValue, hne, hq]
  · have h1 : castValue "12.5" .number = .num (mkRat 25 2) := rfl
    rw [h1]
    congr 1
    rw [Rat.mkRat_eq_div]
    norm_num
  · intro s hc
    by_cases he : jsTrim s = ""
    · simp [castValue, he]
    · rcases hc with hc | hc
      · exact absurd hc he
      · simp [castValue, he, hc]
  · intro s hc
    by_cases he : jsTrim s = ""
    · simp [castValue, he]
    · rcases hc with hc | hc
      · exact absurd hc he
      · simp [castValue, he, hc]

/-- C7 witness: the policy at concrete inputs (`""`, `"abc"`, `"12.5"`,
invalid JSON). -/
theorem castValue_swallow_and_default_witness :
    castValue "" .number = .num 0 ∧
    castValue "abc" .number = .num 0 ∧
    castValue "12.5" .number = .num (25 / 2 : ℚ) ∧
    castValue "nope" .object = .obj [] ∧
    castValue "nope" .array_object = .arr [] :=
  ⟨castValue_swallow_and_default.1 "" (Or.inl rfl),
   castValue_swallow_and_default.1 "abc" (Or.inr rfl),
   castValue_swallow_and_default.2.2.1,
   castValue_swallow_and_default.2.2.2.1 "nope" (Or.inr rfl),
   castValue_swallow_and_default.2.2.2.2 "nope" (Or.inr rfl)⟩

/-- C8 counterexample: the live `flattenObjectKeys` does *not* produce one
mapping per leaf path with dotted paths — it stops at the top level: on
`{a: {b: 1}}` it yields `[("a", object)]`, not `[("a.b", number)]`. -/
theorem flatten_top_level_cex :
    flattenObjectKeys (.obj [("a", .obj [("b", .num 1)])]) =
      [("a", DataType.object)] ∧
    ([("a", DataType.object)] : List (String × DataType)) ≠
      [("a.b", DataType.number)] :=
  ⟨by rfl, by decide⟩

/-- C8 amended: flattening a `bodyTemplate` produces one mapping per
*top-level* key (no recursion into nested objects, no dotted paths), with
`dataType` inferred per leaf exactly as claimed: arrays whose first element
is a number → `array_number`; arrays whose first element is an object (in
the JS `typeof` sense, which includes nested arrays) → `array_object`;
other arrays → `array_string`; a non-array object value → `object`; a
number/boolean/string leaf → the matching scalar type (and `null`, failing
the `value !== null` guard, → `string`). -/
theorem flatten_top_level :
    (∀ fields : List (String × JsonValue),
      flattenObjectKeys (.obj fields) =
        fields.map (fun p => (p.1, inferType p.2))) ∧
    (∀ (q : ℚ) (xs : List JsonValue), inferType (.arr (.num q :: xs)) = .array_number) ∧
    (∀ (g : List (String × JsonValue)) (xs : List JsonValue),
      inferType (.arr (.obj g :: xs)) = .array_object) ∧
    (∀ (ys xs : List JsonValue), inferType (.arr (.arr ys :: xs)) = .array_object) ∧
    (∀ (s : String) (xs : List JsonValue), inferType (.arr (.str s :: xs)) = .array_string) ∧
    (∀ (b : Bool) (xs : List JsonValue), inferType (.arr (.bool b :: xs)) = .array_string) ∧
    (∀ xs : List JsonValue, inferType (.arr (.null :: xs)) = .array_string) ∧
    inferType (.arr []) = .array_string ∧
    (∀ g : List (String × JsonValue), inferType (.obj g) = .object) ∧
    (∀ q : ℚ, inferType (.num q) = .number) ∧
    (∀ b : Bool, inferType (.bool b) = .boolean) ∧
    inferType .null = .string ∧
    (∀ s : String, inferType (.str s) = .string) :=
  ⟨fun _ => rfl, fun _ _ => rfl, fun _ _ => rfl, fun _ _ => rfl, fun _ _ => rfl,
   fun _ _ => rfl, fun _ => rfl, rfl, fun _ => rfl, fun _ => rfl, fun _ => rfl,
   rfl, fun _ => rfl⟩

/-- C9: purity/determinism.  The engine is a pure function of
`(row, mappings)`: structurally equal inputs produce structurally equal
outputs on every call.  (Mutation of the inputs is not even expressible in
this functional embedding; the source writes only to the freshly created
`body` and to objects it allocates itself, which is what justifies the
embedding.) -/
theorem constructPayload_deterministic (row1 row2 : CsvRow)
    (ms1 ms2 : List Mapping) (hr : row1 = row2) (hm : ms1 = ms2) :
    constructPayload row1 ms1 = constructPayload row2 ms2 := by
  rw [hr, hm]

/-- C9 witness. -/
theorem constructPayload_deterministic_witness :
    constructPayload exRowBad [exMapNum, exMapXs] =
      constructPayload exRowBad [exMapNum, exMapXs] :=
  constructPayload_deterministic exRowBad exRowBad [exMapNum, exMapXs]
    [exMapNum, exMapXs] rfl rfl

/-- Splitting the empty string yields the one-element list `[""]`, whatever
the separator (as `''.split(sep)` does in JS). -/
theorem jsSplit_empty_str (sep : String) : jsSplit "" sep = [""] := by
  by_cases h : sep = ""
  · simp [jsSplit, h]
  · unfold jsSplit
    rw [if_neg h]
    rfl

/-- C10 (implicit): an empty mapped cell under an enabled transformation
with no item separator and an `array_` dataType always produces a
*one-element* array at `m.jsonPath` — `[0]` for `array_number`, `[""]` for
`array_string` — the mapping is never skipped, never falls back to
`defaultValue` (the conclusion does not depend on it), and never yields an
empty array.  (For `array_object` the structural well-formedness of the
mapping guarantees the single item object exists.) -/
theorem empty_cell_one_element_array
    (row : CsvRow) (body : JsonValue) (m : Mapping) (h : String)
    (t : TransformationConfig)
    (hch : m.csvHeader = some h) (hh : h ≠ "") (hrow : rowGet row h = some "")
    (htr : m.transformation = some t) (hen : t.enabled = true)
    (hisep : t.itemSeparator = none)
    (harr : m.dataType.isArrayType = true) (hok : mappingOKB m = true) :
    ∃ x, applyMapping row body m = setDeep body m.jsonPath (.arr [x]) ∧
      (m.dataType = .array_number → x = .num 0) ∧
      (m.dataType = .array_string → x = .str "") := by
  have hres : resolveRaw row m = some "" := by
    simp [resolveRaw, hch, hh, hrow]
  by_cases hcond : m.dataType = DataType.array_object ∧ headerTruthy m = true
  · have hdt := hcond.1
    rw [applyMapping_eq_structured row body m "" hres hcond]
    obtain ⟨item, hitem⟩ := Option.isSome_iff_exists.mp
      (structuredItem_isSome m "" hok)
    have hsv : structuredValue m "" = some (.arr [item]) := by
      unfold structuredValue
      rw [jsSplit_empty_str]
      simp [optionMapM, hitem]
    rw [hsv]
    exact ⟨item, rfl,
      fun hc => absurd (hdt ▸ hc) (by decide),
      fun hc => absurd (hdt ▸ hc) (by decide)⟩
  · rw [applyMapping_eq_generic row body m "" hres hcond, htr]
    have hgp : genericParts t "" = [""] := by
      simp [genericParts, hisep, jsSplit_empty_str]
      rfl
    refine ⟨castValue "" m.dataType, by simp [hen, hgp], ?_, ?_⟩
    · intro hdt
      rw [hdt]
      rfl
    · intro hdt
      rw [hdt]
      rfl

/-- C10 witness: the `array_number` instance — an empty `N` cell yields
`{ns: [0]}` even though `defaultValue = "9"` exists; plus the end-to-end
evaluation. -/
theorem empty_cell_one_element_array_witness :
    (∃ x, applyMapping [("N", "")] (.obj []) exMapNs =
        setDeep (.obj []) exMapNs.jsonPath (.arr [x]) ∧
      (exMapNs.dataType = .array_number → x = .num 0) ∧
      (exMapNs.dataType = .array_string → x = .str "")) ∧
    constructPayload [("N", "")] [exMapNs] =
      some (.obj [("ns", .arr [.num 0])]) :=
  ⟨empty_cell_one_element_array [("N", "")] (.obj []) exMapNs "N"
     ⟨true, ",", none, none⟩ rfl (by decide) rfl rfl rfl rfl rfl rfl,
   by rfl⟩
